import Mathlib

/-!
Shallow embedding of the FileHound recursive file search library (source:
dist/src bundle, the FileHound class).  Pure data is embedded directly;
the filesystem is a static tree (the claims all concern a fixed snapshot);
fallible operations return Except.  External collaborators (file-js entries,
the Node path module, lodash helpers, the RegExp engine) are modelled at
their interface boundary; helpers imported from the files/functions modules
of this repository that are not included in the sources are modelled from
the specification and marked as such in their doc comments.
-/

/-- Stat-backed attributes of one filesystem entry, as exposed by the external
file-js entry object: entry name, path extension (getPathExtension), size,
hidden flag (isHiddenSync), socket flag (isSocket), and a flag recording
whether the isDirectorySync check throws for this entry. -/
structure FileAttrs where
  name : String
  ext : String
  size : Nat
  hidden : Bool
  socket : Bool
  dirCheckFails : Bool
deriving DecidableEq

mutual
/-- A node of the static filesystem snapshot: a non-directory entry, or a
directory with a flag recording whether listing its children fails
(getFiles / getFilesSync raising EACCES, ENOENT, ...) and its children. -/
inductive FSNode where
  | file (attrs : FileAttrs)
  | dir (attrs : FileAttrs) (listFails : Bool) (children : FSList)
/-- A list of filesystem nodes (mutual with FSNode so that structural
recursion and induction over the tree are available). -/
inductive FSList where
  | nil
  | cons (head : FSNode) (tail : FSList)
end

/-- The attributes of a node. -/
def FSNode.attrsOf : FSNode → FileAttrs
  | .file a => a
  | .dir a _ _ => a

/-- The true directory-ness of a node (what a successful isDirectorySync
call reports). -/
def FSNode.isDirNode : FSNode → Bool
  | .file _ => false
  | .dir _ _ _ => true

/-- The view of one visited entry that the filters and result formatting
observe: full path (file-js getName), depth (getDepthSync) and the
stat-backed attributes.  Filters never observe the subtree below an entry. -/
structure FileView where
  path : String
  depth : Nat
  attrs : FileAttrs
deriving DecidableEq

/-- Errors surfaced by a search run: a directory-listing failure at a path
(thrown by getFilesSync / rejected by getFiles), the TypeError raised by
calling .then on a plain array in _searchAsync, and the TypeError raised by
reducing an empty array with no initial value in find/findSync. -/
inductive JsErr where
  | listing (path : String)
  | thenNotAFunction
  | reduceEmpty
deriving DecidableEq

/-- Lifecycle notifications emitted by find. -/
inductive FHEvent where
  | matchEv (path : String)
  | errorEv
  | endEv
deriving DecidableEq

/-- The externally visible shape of one match: a bare path, or path plus a
stat snapshot when includeFileStats is set. -/
inductive MatchResult where
  | plain (path : String)
  | withStats (path : String) (stats : FileAttrs)
deriving DecidableEq

/-- The filesystem as seen through File.create: maps a root path string to
the depth of that path (getDepthSync) and its subtree, or none when the
path does not exist. -/
abbrev Fs := String → Option (Nat × FSNode)

/-- Splits a character list at a separator (used to model the segment
structure of a path string). -/
def chSplit (sep : Char) : List Char → List (List Char)
  | [] => [[]]
  | c :: rest =>
    let r := chSplit sep rest
    if c = sep then [] :: r
    else
      match r with
      | [] => [[c]]
      | seg :: segs => (c :: seg) :: segs

/-- Joins segments with a separator character. -/
def joinSegs : List (List Char) → List Char
  | [] => []
  | [s] => s
  | s :: rest => s ++ '/' :: joinSegs rest

/-- Boolean string prefix test (via the underlying character lists). -/
def strStartsWith (s pre : String) : Bool := pre.data.isPrefixOf s.data

/-- Models the external collaborator path.normalize of the Node path module
(posix rules): collapses duplicate separators, resolves single-dot and
dot-dot segments, preserves a meaningful trailing separator, and returns a
single dot for an empty input. -/
def pathNormalize (p : String) : String :=
  if p = "" then "."
  else
    let cs := p.data
    let isAbs := cs.head? = some '/'
    let hasTrail := 1 < cs.length ∧ cs.getLast? = some '/'
    let segs := (chSplit '/' cs).filter (fun s => s ≠ [] ∧ s ≠ ['.'])
    let stack := segs.foldl (fun (st : List (List Char)) s =>
      if s = ['.', '.'] then
        match st with
        | [] => if isAbs then [] else [['.', '.']]
        | t :: rest => if t = ['.', '.'] then s :: st else rest
      else s :: st) []
    let core := joinSegs stack.reverse
    let base : List Char :=
      if isAbs then '/' :: core
      else if core = [] then ['.'] else core
    let final := if hasTrail ∧ base.getLast? ≠ some '/' then base ++ ['/'] else base
    String.mk final

/-- Models the lodash uniq collaborator: keeps the first occurrence of each
element, in order (auxiliary accumulator form). -/
def jsUniqAux (seen : List String) : List String → List String
  | [] => []
  | x :: xs => if x ∈ seen then jsUniqAux seen xs else x :: jsUniqAux (x :: seen) xs

/-- Models the lodash uniq collaborator: keeps the first occurrence of each
element, in order. -/
def jsUniq (xs : List String) : List String := jsUniqAux [] xs

/-- Modelled from the spec: compose, imported from the functions module of
this repository (not included under the sources): composition of the filter
chain returns a single predicate that is true iff every added predicate is
true for the given entry; an empty chain always returns true. -/
def compose (fns : List (FileView → Bool)) : FileView → Bool :=
  fun file => fns.all (fun fn => fn file)

/-- Modelled from the spec: negate, imported from the functions module of
this repository (not included under the sources): wraps a predicate in
logical negation of its single boolean result. -/
def negate (fn : FileView → Bool) : FileView → Bool :=
  fun file => !(fn file)

/-- Is the first path a strict filesystem descendant of the second
(normalized) path: distinct, and below it. -/
def isStrictDescendantOf (child parent : String) : Bool :=
  (child != parent) && strStartsWith child (parent ++ "/")

/-- Modelled from the spec: reducePaths, imported from the files module of
this repository (not included under the sources): drops any normalized path
that is a strict descendant of another path in the set, so a subtree
reachable through two configured roots is not traversed twice. -/
def reducePaths (searchPaths : List String) : List String :=
  searchPaths.filter (fun p => !(searchPaths.any (fun q => isStrictDescendantOf p q)))

/-- cleanExtension (bind.js): strips one leading dot from an extension. -/
def cleanExtension (e : String) : String :=
  if strStartsWith e "." then String.mk (e.data.drop 1) else e

/-- isRegExpMatch (bind.js): tests the entry name (file-js getName, i.e. the
full path) against a pattern; the RegExp engine is external and supplied as
reTest. -/
def isRegExpMatch (reTest : String → String → Bool) (pattern : String) : FileView → Bool :=
  fun file => reTest pattern file.path

/-- The mutable state of one FileHound instance, with the fields assigned in
the constructor plus the negateFilters field set by not() and the maxDepth
field set by depth() (both undefined on construction, modelled as their
falsy/absent defaults). -/
structure FileHound where
  _filters : List (FileView → Bool)
  _searchPaths : List String
  _ignoreHiddenDirectories : Bool
  _isMatch : FileView → Bool
  _sync : Bool
  _directoriesOnly : Bool
  _includeStats : Bool
  negateFilters : Bool
  maxDepth : Option Nat

/-- FileHound constructor / static create: one initial search path, the
process working directory (external, passed as cwd); _isMatch starts as the
lodash noop, whose undefined result is falsy when used as a predicate. -/
def FileHound.create (cwd : String) : FileHound where
  _filters := []
  _searchPaths := [cwd]
  _ignoreHiddenDirectories := false
  _isMatch := fun _ => false
  _sync := false
  _directoriesOnly := false
  _includeStats := false
  negateFilters := false
  maxDepth := none

/-- addFilter: appends a predicate to the filter chain. -/
def FileHound.addFilter (h : FileHound) (filter : FileView → Bool) : FileHound :=
  { h with _filters := h._filters ++ [filter] }

/-- paths: replaces the search paths with the uniq of the supplied strings,
each mapped through path.normalize (note the order: deduplication happens on
the raw strings, normalization afterwards). -/
def FileHound.paths (h : FileHound) (ps : List String) : FileHound :=
  { h with _searchPaths := (jsUniq ps).map pathNormalize }

/-- path: single-path form of paths. -/
def FileHound.path (h : FileHound) (p : String) : FileHound :=
  h.paths [p]

/-- discard: for each pattern, adds the negation of a RegExp match on the
entry name as an ordinary filter. -/
def FileHound.discard (h : FileHound) (reTest : String → String → Bool)
    (patterns : List String) : FileHound :=
  patterns.foldl (fun acc pattern => acc.addFilter (negate (isRegExpMatch reTest pattern))) h

/-- ext: filters by path extension; each supplied extension is cleaned of a
leading dot. -/
def FileHound.ext (h : FileHound) (exts : List String) : FileHound :=
  let extensions := exts.map cleanExtension
  h.addFilter (fun file => extensions.contains file.attrs.ext)

/-- not: sets the chain-level negation toggle. -/
def FileHound.not (h : FileHound) : FileHound :=
  { h with negateFilters := true }

/-- ignoreHiddenDirectories: enables hidden-directory pruning. -/
def FileHound.ignoreHiddenDirectories (h : FileHound) : FileHound :=
  { h with _ignoreHiddenDirectories := true }

/-- includeFileStats: results carry a stat snapshot. -/
def FileHound.includeFileStats (h : FileHound) : FileHound :=
  { h with _includeStats := true }

/-- directory: directory-only mode. -/
def FileHound.directory (h : FileHound) : FileHound :=
  { h with _directoriesOnly := true }

/-- depth: sets the maximum search depth. -/
def FileHound.depth (h : FileHound) (d : Nat) : FileHound :=
  { h with maxDepth := some d }

/-- socket: filters for sockets. -/
def FileHound.socket (h : FileHound) : FileHound :=
  h.addFilter (fun file => file.attrs.socket)

/-- _atMaxDepth: the relative depth of dir below root exceeds the configured
maximum (false when no maximum is configured). -/
def FileHound._atMaxDepth (h : FileHound) (root dir : FileView) : Bool :=
  let depth := dir.depth - root.depth
  match h.maxDepth with
  | none => false
  | some m => m < depth

/-- _shouldFilterDirectory: prune when past the maximum depth, or when
hidden directories are ignored and this directory is hidden. -/
def FileHound._shouldFilterDirectory (h : FileHound) (root dir : FileView) : Bool :=
  h._atMaxDepth root dir || (h._ignoreHiddenDirectories && dir.attrs.hidden)

/-- _newMatcher: composes the filter chain; when the negation toggle is set,
wraps the whole composed predicate in a single negation. -/
def FileHound._newMatcher (h : FileHound) : FileView → Bool :=
  let isMatch := compose h._filters
  if h.negateFilters then negate isMatch else isMatch

/-- _initFilters: recomputes the effective predicate from the current filter
chain at the start of a find/findSync invocation. -/
def FileHound._initFilters (h : FileHound) : FileHound :=
  { h with _isMatch := h._newMatcher }

mutual
/-- _search (bind.js): one directory visit.  If the current entry should be
pruned, contribute nothing.  Otherwise list the children (fallible: a
listing failure aborts with an error), map each child through the
per-child step (_searchChildren below), flatten, and filter by the
effective predicate.  The tracked-paths array mutated by the source is
threaded explicitly; p and d are the full path and depth of the current
entry, from which its file-js view is rebuilt. -/
def FileHound._search (h : FileHound) (rootV : FileView) (p : String) (d : Nat)
    (n : FSNode) (tracked : List FileView) : Except JsErr (List FileView × List FileView) :=
  if h._shouldFilterDirectory rootV ⟨p, d, n.attrsOf⟩ then .ok ([], tracked)
  else
    match n with
    | .file _ => .error (.listing p)
    | .dir _ listFails children =>
      if listFails then .error (.listing p)
      else
        match FileHound._searchChildren h rootV p d children tracked with
        | .error e => .error e
        | .ok (mapped, tr) => .ok (mapped.filter h._isMatch, tr)

/-- The body of the map over a listed directory in _search, one child at a
time, in listing order: determine directory-ness with the fallible type
check, swallowing a check failure (the child then counts as a
non-directory); a directory child is tracked unless pruned and recursed
into; a non-directory child is passed through as a single entry.  Results
are concatenated in order (the reduce-flatten of the source). -/
def FileHound._searchChildren (h : FileHound) (rootV : FileView) (p : String) (d : Nat)
    (cs : FSList) (tracked : List FileView) : Except JsErr (List FileView × List FileView) :=
  match cs with
  | .nil => .ok ([], tracked)
  | .cons c rest =>
    let cp := p ++ "/" ++ c.attrsOf.name
    let cv : FileView := ⟨cp, d + 1, c.attrsOf⟩
    let isDir := if c.attrsOf.dirCheckFails then false else c.isDirNode
    if isDir then
      let tr1 := if h._shouldFilterDirectory rootV cv then tracked else tracked ++ [cv]
      match FileHound._search h rootV cp (d + 1) c tr1 with
      | .error e => .error e
      | .ok (sub, tr2) =>
        match FileHound._searchChildren h rootV p d rest tr2 with
        | .error e => .error e
        | .ok (subs, tr3) => .ok (sub ++ subs, tr3)
    else
      match FileHound._searchChildren h rootV p d rest tracked with
      | .error e => .error e
      | .ok (subs, tr2) => .ok (cv :: subs, tr2)
end

/-- _searchSync: searches one root with blocking calls (the mutation of the
sync flag by this method is modelled at the findSync level, where the
mutated instance is threaded).  In directory-only mode the tracked
directories filtered by the effective predicate are returned instead of the
files.  A missing root surfaces as a listing failure when first listed. -/
def FileHound._searchSync (h : FileHound) (fs : Fs) (dir : String) :
    Except JsErr (List FileView) :=
  match fs dir with
  | none => .error (.listing dir)
  | some (d, n) =>
    let rootV : FileView := ⟨dir, d, n.attrsOf⟩
    match FileHound._search h rootV dir d n [] with
    | .error e => .error e
    | .ok (files, tracked) =>
      .ok (if h._directoriesOnly then tracked.filter h._isMatch else files)

/-- _searchAsync: searches one root on the concurrent path.  _search returns
a plain array (not a promise) when the root itself is pruned at the top of
_search, and on the synchronous code path (sync flag set); calling .then on
that plain array raises a TypeError.  On success in file mode, one match
notification fires per matched file of this root, batched after the whole
root resolves.  A synchronous throw out of _search propagates as the
failure of this root. -/
def FileHound._searchAsync (h : FileHound) (fs : Fs) (dir : String) :
    Except JsErr (List FileView) × List FHEvent :=
  match fs dir with
  | none => (.error (.listing dir), [])
  | some (d, n) =>
    let rootV : FileView := ⟨dir, d, n.attrsOf⟩
    let isPromise := !(h._shouldFilterDirectory rootV rootV) && !h._sync
    match FileHound._search h rootV dir d n [] with
    | .error e => (.error e, [])
    | .ok (files, tracked) =>
      if !isPromise then (.error .thenNotAFunction, [])
      else if h._directoriesOnly then (.ok (tracked.filter h._isMatch), [])
      else (.ok files, files.map (fun f => .matchEv f.path))

/-- getSearchPaths: when a maximum depth is configured the deduplicated
paths are returned verbatim; only otherwise are descendant roots dropped
via reducePaths.  (The copy made by the source is identity on values.) -/
def FileHound.getSearchPaths (h : FileHound) : List String :=
  if h.maxDepth.isSome then h._searchPaths else reducePaths h._searchPaths

/-- formatResult: a matched entry becomes its path, or path plus stat
snapshot when includeFileStats is set. -/
def FileHound.formatResult (h : FileHound) (f : FileView) : MatchResult :=
  if h._includeStats then .withStats f.path f.attrs else .plain f.path

deriving instance DecidableEq for Except

/-- Is this Except an error. -/
def isErr : Except ε α → Bool
  | .error _ => true
  | .ok _ => false

/-- The match list produced by a run, when one is produced at all. -/
def okResults : Except ε α → Option α
  | .error _ => none
  | .ok a => some a

/-- Collects a list of already-settled per-root outcomes: the first error in
order wins, otherwise all result lists (Promise.all over the mapped roots). -/
def collectE : List (Except JsErr α) → Except JsErr (List α)
  | [] => .ok []
  | .error e :: _ => .error e
  | .ok a :: rest =>
    match collectE rest with
    | .error e => .error e
    | .ok as => .ok (a :: as)

/-- Sequential fallible map: the first error aborts (the synchronous map
over roots, where the first throw propagates). -/
def mapE (f : α → Except JsErr β) : List α → Except JsErr (List β)
  | [] => .ok []
  | a :: as =>
    match f a with
    | .error e => .error e
    | .ok b =>
      match mapE f as with
      | .error e => .error e
      | .ok bs => .ok (b :: bs)

/-- find: recompute the effective predicate, resolve the roots, run the
per-root asynchronous searches, Promise.all them, reduce-flatten with no
initial value (a TypeError on an empty root list), format each match, and
emit the notifications: every match notification of successful roots, then
on failure a single error notification, and always a final end
notification.  Returns the settled outcome, the emitted events in order,
and the instance as mutated by the run. -/
def FileHound.find (fs : Fs) (h0 : FileHound) :
    Except JsErr (List MatchResult) × List FHEvent × FileHound :=
  let h := h0._initFilters
  let roots := h.getSearchPaths
  let perRoot := roots.map (fun p => FileHound._searchAsync h fs p)
  let events := (perRoot.map Prod.snd).flatten
  match collectE (perRoot.map Prod.fst) with
  | .error e => (.error e, events ++ [.errorEv, .endEv], h)
  | .ok lists =>
    match lists with
    | [] => (.error .reduceEmpty, events ++ [.errorEv, .endEv], h)
    | l :: ls => (.ok ((ls.foldl (· ++ ·) l).map h.formatResult), events ++ [.endEv], h)

/-- findSync: recompute the effective predicate, resolve the roots, search
each root in order with the blocking path (the first failure propagates
synchronously), reduce-flatten with no initial value (a TypeError on an
empty root list), and format each match.  _searchSync sets the sync flag of
the instance before doing anything else, so the flag is set exactly when at
least one root is searched; the mutated instance is returned alongside the
outcome. -/
def FileHound.findSync (fs : Fs) (h0 : FileHound) :
    Except JsErr (List MatchResult) × FileHound :=
  let h1 := h0._initFilters
  let roots := h1.getSearchPaths
  match roots with
  | [] => (.error .reduceEmpty, h1)
  | _ :: _ =>
    let h2 := { h1 with _sync := true }
    match mapE (fun p => FileHound._searchSync h2 fs p) roots with
    | .error e => (.error e, h2)
    | .ok lists =>
      match lists with
      | [] => (.error .reduceEmpty, h2)
      | l :: ls => (.ok ((ls.foldl (· ++ ·) l).map h2.formatResult), h2)

/-- Is the root of a configured search path itself pruned by
_shouldFilterDirectory (hidden while hidden-directory pruning is on; the
depth test is trivially false at the root). -/
def rootPruned (fs : Fs) (h : FileHound) (p : String) : Bool :=
  match fs p with
  | none => false
  | some (d, n) =>
    let rootV : FileView := ⟨p, d, n.attrsOf⟩
    h._shouldFilterDirectory rootV rootV

mutual
/-- Do all directory listings in this subtree succeed. -/
def fsListingsOk : FSNode → Bool
  | .file _ => true
  | .dir _ listFails cs => !listFails && fsListingsOkList cs
/-- Do all directory listings in this forest succeed. -/
def fsListingsOkList : FSList → Bool
  | .nil => true
  | .cons c rest => fsListingsOk c && fsListingsOkList rest
end

mutual
/-- Formalizes the notion used by the hidden-directory claim: the views of
all entries below a node that are reachable without passing through a
hidden directory (every immediate child is reachable; descent continues
only below real, non-hidden directories). -/
def cleanEntries (p : String) (d : Nat) (n : FSNode) : List FileView :=
  match n with
  | .file _ => []
  | .dir _ _ cs => cleanEntriesList p d cs
/-- Forest version of cleanEntries. -/
def cleanEntriesList (p : String) (d : Nat) (cs : FSList) : List FileView :=
  match cs with
  | .nil => []
  | .cons c rest =>
    let cp := p ++ "/" ++ c.attrsOf.name
    let cv : FileView := ⟨cp, d + 1, c.attrsOf⟩
    (cv :: (if c.isDirNode && !c.attrsOf.hidden then cleanEntries cp (d + 1) c else []))
      ++ cleanEntriesList p d rest
end

/-- Attributes of an ordinary visible file with a given name and extension. -/
def fileAttrs (name ext : String) : FileAttrs := ⟨name, ext, 0, false, false, false⟩

/-- Attributes of an ordinary visible directory. -/
def dirAttrs (name : String) : FileAttrs := ⟨name, "", 0, false, false, false⟩

/-- Attributes of a hidden directory. -/
def hiddenDirAttrs (name : String) : FileAttrs := ⟨name, "", 0, true, false, false⟩

/-- Attributes of a directory whose isDirectorySync check throws. -/
def checkFailDirAttrs (name : String) : FileAttrs := ⟨name, "", 0, false, false, true⟩

/-- The concrete tree of the spec scenarios: r containing a.txt, b.json, and
sub containing c.txt. -/
def treeR : FSNode :=
  .dir (dirAttrs "r") false
    (.cons (.file (fileAttrs "a.txt" "txt"))
      (.cons (.file (fileAttrs "b.json" "json"))
        (.cons (.dir (dirAttrs "sub") false (.cons (.file (fileAttrs "c.txt" "txt")) .nil))
          .nil)))

/-- A filesystem with treeR mounted at /r. -/
def fsR : Fs := fun p => if p = "/r" then some (1, treeR) else none

/-- The spec failure scenario: same tree, but listing sub fails. -/
def treeRFail : FSNode :=
  .dir (dirAttrs "r") false
    (.cons (.file (fileAttrs "a.txt" "txt"))
      (.cons (.dir (dirAttrs "sub") true (.cons (.file (fileAttrs "c.txt" "txt")) .nil))
        .nil))

/-- A filesystem with treeRFail mounted at /r. -/
def fsRFail : Fs := fun p => if p = "/r" then some (1, treeRFail) else none

/-- A hidden directory used as a configured root. -/
def treeHidden : FSNode :=
  .dir (hiddenDirAttrs ".p") false (.cons (.file (fileAttrs "x.txt" "txt")) .nil)

/-- A filesystem with treeHidden mounted at /h/.p. -/
def fsHidden : Fs := fun p => if p = "/h/.p" then some (2, treeHidden) else none

/-- A one-file working directory. -/
def treeW : FSNode :=
  .dir (dirAttrs "w") false (.cons (.file (fileAttrs "a.txt" "txt")) .nil)

/-- A filesystem with treeW mounted at /w. -/
def fsW : Fs := fun p => if p = "/w" then some (1, treeW) else none

/-- A tree with hidden directories at two nesting levels, each with a
sibling that is not hidden. -/
def treeNine : FSNode :=
  .dir (dirAttrs "r9") false
    (.cons (.file (fileAttrs "a.txt" "txt"))
      (.cons (.dir (hiddenDirAttrs ".hid") false
          (.cons (.file (fileAttrs "x.txt" "txt")) .nil))
        (.cons (.dir (dirAttrs "sub") false
            (.cons (.dir (hiddenDirAttrs ".hid2") false
                (.cons (.file (fileAttrs "d.txt" "txt")) .nil))
              (.cons (.file (fileAttrs "e.txt" "txt")) .nil)))
          .nil)))

/-- A filesystem with treeNine mounted at /r9. -/
def fsNine : Fs := fun p => if p = "/r9" then some (1, treeNine) else none

/-- A tree containing a directory whose type check throws (with a child that
is therefore never listed) next to an ordinary file. -/
def treeChk : FSNode :=
  .dir (dirAttrs "c") false
    (.cons (.dir (checkFailDirAttrs "odd") false
        (.cons (.file (fileAttrs "in.txt" "txt")) .nil))
      (.cons (.file (fileAttrs "ok.txt" "txt")) .nil))

/-- A filesystem with treeChk mounted at /c. -/
def fsChk : Fs := fun p => if p = "/c" then some (1, treeChk) else none

/-- The subtree below the check-failing directory of treeChk. -/
def innerC : FSList := .cons (.file (fileAttrs "in.txt" "txt")) .nil

/-- The siblings after the check-failing directory of treeChk. -/
def restC : FSList := .cons (.file (fileAttrs "ok.txt" "txt")) .nil

/-- The root view of treeChk mounted at /c. -/
def rvC : FileView := ⟨"/c", 1, dirAttrs "c"⟩

/-- A concrete external RegExp collaborator for witnesses: tests whether the
entry name starts with the pattern. -/
def reTest7 : String → String → Bool := fun pattern s => strStartsWith s pattern

/-- A concrete negated instance with one extension filter. -/
def hound7 : FileHound := ((FileHound.create "/w").ext ["txt"]).not

/-- A concrete entry view for the filter-algebra witness. -/
def view7 : FileView := ⟨"/w/x.txt", 2, fileAttrs "x.txt" "txt"⟩

/-- A concrete initialized instance with depth zero and a txt filter. -/
def hound8 : FileHound :=
  ((((FileHound.create "/x").paths ["/r"]).ext ["txt"]).depth 0)._initFilters

/-- A concrete initialized instance with hidden-directory pruning. -/
def hound9 : FileHound :=
  (((FileHound.create "/x").paths ["/r9"]).ignoreHiddenDirectories)._initFilters

/-- The root view of treeNine mounted at /r9. -/
def rv9 : FileView := ⟨"/r9", 1, dirAttrs "r9"⟩

/-- The view of the top-level visible file of treeNine. -/
def viewA9 : FileView := ⟨"/r9/a.txt", 2, fileAttrs "a.txt" "txt"⟩

/-- The view of the nested visible file of treeNine. -/
def viewE9 : FileView := ⟨"/r9/sub/e.txt", 3, fileAttrs "e.txt" "txt"⟩

/-- The view of the visible subdirectory of treeNine. -/
def subV9 : FileView := ⟨"/r9/sub", 2, dirAttrs "sub"⟩

/-- The prune decision only reads the depth limit and the hidden-directory
flag of the instance. -/
theorem shouldFilter_congr (h h' : FileHound) (hmd : h.maxDepth = h'.maxDepth)
    (hih : h._ignoreHiddenDirectories = h'._ignoreHiddenDirectories)
    (root dir : FileView) :
    h._shouldFilterDirectory root dir = h'._shouldFilterDirectory root dir := by
  simp [FileHound._shouldFilterDirectory, FileHound._atMaxDepth, hmd, hih]

/-- A pruned entry contributes nothing and leaves the tracked list alone. -/
theorem search_pruned (h : FileHound) (rootV : FileView) (p : String) (d : Nat)
    (n : FSNode) (tracked : List FileView)
    (hpr : h._shouldFilterDirectory rootV ⟨p, d, n.attrsOf⟩ = true) :
    FileHound._search h rootV p d n tracked = .ok ([], tracked) := by
  cases n <;> simp [FileHound._search, hpr]

/-- Unfolding of one unpruned directory visit whose listing succeeds. -/
theorem search_dir_unfold (h : FileHound) (rootV : FileView) (p : String) (d : Nat)
    (a : FileAttrs) (cs : FSList) (tracked : List FileView)
    (hpr : h._shouldFilterDirectory rootV ⟨p, d, a⟩ = false) :
    FileHound._search h rootV p d (.dir a false cs) tracked =
      match FileHound._searchChildren h rootV p d cs tracked with
      | .error e => .error e
      | .ok (mapped, tr) => .ok (mapped.filter h._isMatch, tr) := by
  simp [FileHound._search, FSNode.attrsOf, hpr]

/-- Unfolding of one unpruned directory visit whose listing fails. -/
theorem search_dir_listfail (h : FileHound) (rootV : FileView) (p : String) (d : Nat)
    (a : FileAttrs) (cs : FSList) (tracked : List FileView)
    (hpr : h._shouldFilterDirectory rootV ⟨p, d, a⟩ = false) :
    FileHound._search h rootV p d (.dir a true cs) tracked = .error (.listing p) := by
  simp [FileHound._search, FSNode.attrsOf, hpr]

/-- Unfolding of the child step for a child that passes the directory check. -/
theorem searchChildren_cons_dir (h : FileHound) (rootV : FileView) (p : String) (d : Nat)
    (c : FSNode) (rest : FSList) (tracked : List FileView)
    (hd : (if c.attrsOf.dirCheckFails then false else c.isDirNode) = true) :
    FileHound._searchChildren h rootV p d (.cons c rest) tracked =
      (match FileHound._search h rootV (p ++ "/" ++ c.attrsOf.name) (d + 1) c
          (if h._shouldFilterDirectory rootV ⟨p ++ "/" ++ c.attrsOf.name, d + 1, c.attrsOf⟩
            then tracked else tracked ++ [⟨p ++ "/" ++ c.attrsOf.name, d + 1, c.attrsOf⟩]) with
       | .error e => .error e
       | .ok (sub, tr2) =>
         match FileHound._searchChildren h rootV p d rest tr2 with
         | .error e => .error e
         | .ok (subs, tr3) => .ok (sub ++ subs, tr3)) := by
  rw [FileHound._searchChildren]
  simp only [hd, if_true]

/-- Unfolding of the child step for a child that does not pass the directory
check (a non-directory, or an entry whose type check throws). -/
theorem searchChildren_cons_ndir (h : FileHound) (rootV : FileView) (p : String) (d : Nat)
    (c : FSNode) (rest : FSList) (tracked : List FileView)
    (hd : (if c.attrsOf.dirCheckFails then false else c.isDirNode) = false) :
    FileHound._searchChildren h rootV p d (.cons c rest) tracked =
      (match FileHound._searchChildren h rootV p d rest tracked with
       | .error e => .error e
       | .ok (subs, tr2) => .ok (⟨p ++ "/" ++ c.attrsOf.name, d + 1, c.attrsOf⟩ :: subs, tr2)) := by
  rw [FileHound._searchChildren]
  simp only [hd, Bool.false_eq_true, if_false]

mutual
/-- The traversal only reads the depth limit, the hidden-directory flag and
the effective predicate of the instance (in particular it is insensitive to
the sync flag, which in the source only selects between the blocking and the
promise-returning listing call). -/
theorem search_congr (h h' : FileHound) (hmd : h.maxDepth = h'.maxDepth)
    (hih : h._ignoreHiddenDirectories = h'._ignoreHiddenDirectories)
    (him : h._isMatch = h'._isMatch) (rootV : FileView) (p : String) (d : Nat)
    (n : FSNode) (tracked : List FileView) :
    FileHound._search h rootV p d n tracked = FileHound._search h' rootV p d n tracked := by
  cases n with
  | file a =>
    simp only [FileHound._search, shouldFilter_congr h h' hmd hih]
  | dir a lf cs =>
    simp only [FileHound._search, shouldFilter_congr h h' hmd hih, him]
    rw [searchChildren_congr h h' hmd hih him rootV p d cs tracked]
/-- Forest version of search_congr. -/
theorem searchChildren_congr (h h' : FileHound) (hmd : h.maxDepth = h'.maxDepth)
    (hih : h._ignoreHiddenDirectories = h'._ignoreHiddenDirectories)
    (him : h._isMatch = h'._isMatch) (rootV : FileView) (p : String) (d : Nat)
    (cs : FSList) (tracked : List FileView) :
    FileHound._searchChildren h rootV p d cs tracked
      = FileHound._searchChildren h' rootV p d cs tracked := by
  cases cs with
  | nil => simp [FileHound._searchChildren]
  | cons c rest =>
    simp only [FileHound._searchChildren, shouldFilter_congr h h' hmd hih]
    cases hd : (if c.attrsOf.dirCheckFails then false else c.isDirNode) with
    | false =>
      simp only [Bool.false_eq_true, if_false]
      rw [searchChildren_congr h h' hmd hih him rootV p d rest tracked]
    | true =>
      simp only [if_true]
      have hrec : ∀ (X : Except JsErr (List FileView × List FileView)),
          (match X with
           | .error e => (.error e : Except JsErr (List FileView × List FileView))
           | .ok (sub, tr2) =>
             match FileHound._searchChildren h rootV p d rest tr2 with
             | .error e => .error e
             | .ok (subs, tr3) => .ok (sub ++ subs, tr3)) =
          (match X with
           | .error e => (.error e : Except JsErr (List FileView × List FileView))
           | .ok (sub, tr2) =>
             match FileHound._searchChildren h' rootV p d rest tr2 with
             | .error e => .error e
             | .ok (subs, tr3) => .ok (sub ++ subs, tr3)) := by
        intro X
        cases X with
        | error e => rfl
        | ok pr =>
          obtain ⟨sub, tr2⟩ := pr
          dsimp only
          rw [searchChildren_congr h h' hmd hih him rootV p d rest tr2]
      rw [search_congr h h' hmd hih him]
      exact hrec _
end

/-- Collecting already-settled outcomes of a mapped list is the sequential
fallible map. -/
theorem collectE_map_eq_mapE (f : α → Except JsErr β) (l : List α) :
    collectE (l.map f) = mapE f l := by
  induction l with
  | nil => rfl
  | cons a as ih =>
    simp only [List.map_cons, mapE]
    cases f a with
    | error e => rfl
    | ok b => simp only [collectE, ih]

/-- The fallible map only depends on the pointwise behaviour of its function. -/
theorem mapE_congr (f g : α → Except JsErr β) (l : List α) (hfg : ∀ a ∈ l, f a = g a) :
    mapE f l = mapE g l := by
  induction l with
  | nil => rfl
  | cons a as ih =>
    simp only [mapE, hfg a (List.mem_cons_self a as)]
    rw [ih (fun b hb => hfg b (List.mem_cons_of_mem a hb))]

/-- If any element of the list fails, the fallible map fails. -/
theorem mapE_isErr_of_mem (f : α → Except JsErr β) (l : List α) (a : α) (ha : a ∈ l)
    (herr : isErr (f a) = true) : isErr (mapE f l) = true := by
  induction l with
  | nil => simp at ha
  | cons b bs ih =>
    rcases List.mem_cons.mp ha with hab | ha2
    · subst hab
      simp only [mapE]
      cases hfa : f a with
      | error e => rfl
      | ok x => rw [hfa] at herr; simp [isErr] at herr
    · simp only [mapE]
      cases f b with
      | error e => rfl
      | ok x =>
        have := ih ha2
        cases hm : mapE f bs with
        | error e => rfl
        | ok xs => rw [hm] at this; simp [isErr] at this

/-- If the head of the mapped list fails, the fallible map fails with that
same error. -/
theorem mapE_cons_err (f : α → Except JsErr β) (a : α) (l : List α) (e : JsErr)
    (ha : f a = .error e) : mapE f (a :: l) = .error e := by
  simp only [mapE, ha]

/-- Membership in jsUniqAux: in the remaining input and not already seen. -/
theorem jsUniqAux_mem (seen xs : List String) (s : String) :
    s ∈ jsUniqAux seen xs ↔ s ∈ xs ∧ s ∉ seen := by
  induction xs generalizing seen with
  | nil => simp [jsUniqAux]
  | cons x xs ih =>
    by_cases hx : x ∈ seen
    · simp only [jsUniqAux, if_pos hx, ih, List.mem_cons]
      constructor
      · rintro ⟨hmem, hns⟩; exact ⟨Or.inr hmem, hns⟩
      · rintro ⟨hmem | hmem, hns⟩
        · subst hmem; exact absurd hx hns
        · exact ⟨hmem, hns⟩
    · simp only [jsUniqAux, if_neg hx, List.mem_cons, ih, List.mem_cons, not_or]
      constructor
      · rintro (rfl | ⟨hmem, hnx, hns⟩)
        · exact ⟨Or.inl rfl, hx⟩
        · exact ⟨Or.inr hmem, hns⟩
      · rintro ⟨rfl | hmem, hns⟩
        · exact Or.inl rfl
        · by_cases hsx : s = x
          · exact Or.inl hsx
          · exact Or.inr ⟨hmem, hsx, hns⟩

/-- jsUniq keeps exactly the elements of its input. -/
theorem jsUniq_mem (xs : List String) (s : String) : s ∈ jsUniq xs ↔ s ∈ xs := by
  simp [jsUniq, jsUniqAux_mem]

/-- jsUniqAux produces no duplicates. -/
theorem jsUniqAux_nodup (seen xs : List String) : (jsUniqAux seen xs).Nodup := by
  induction xs generalizing seen with
  | nil => simp [jsUniqAux]
  | cons x xs ih =>
    by_cases hx : x ∈ seen
    · simpa [jsUniqAux, hx] using ih seen
    · simp only [jsUniqAux, if_neg hx, List.nodup_cons]
      refine ⟨?_, ih (x :: seen)⟩
      intro hmem
      rw [jsUniqAux_mem] at hmem
      exact hmem.2 (List.mem_cons_self x seen)

/-- jsUniq produces no duplicates. -/
theorem jsUniq_nodup (xs : List String) : (jsUniq xs).Nodup := jsUniqAux_nodup [] xs

/-- discard only appends the negated pattern filters to the chain. -/
theorem discard_eq (h : FileHound) (reTest : String → String → Bool) (pats : List String) :
    h.discard reTest pats
      = { h with _filters :=
            h._filters ++ pats.map (fun pattern => negate (isRegExpMatch reTest pattern)) } := by
  induction pats generalizing h with
  | nil => simp [FileHound.discard]
  | cons pat rest ih =>
    show FileHound.discard (h.addFilter (negate (isRegExpMatch reTest pat))) reTest rest = _
    rw [ih]
    simp [FileHound.addFilter]

/-- Composition distributes over concatenation of filter chains as boolean
conjunction. -/
theorem compose_append (a b : List (FileView → Bool)) (v : FileView) :
    compose (a ++ b) v = (compose a v && compose b v) := by
  simp [compose, List.all_append]

mutual
/-- When every directory listing in the subtree succeeds, a visit of a
directory node never fails, whatever directory-check failures occur below. -/
theorem search_ok_of_listingsOk (h : FileHound) (rootV : FileView) (p : String) (d : Nat)
    (n : FSNode) (tracked : List FileView) (hok : fsListingsOk n = true)
    (hdir : n.isDirNode = true) :
    isErr (FileHound._search h rootV p d n tracked) = false := by
  cases n with
  | file a => simp [FSNode.isDirNode] at hdir
  | dir a lf cs =>
    have hok2 : lf = false ∧ fsListingsOkList cs = true := by
      cases lf
      · simpa [fsListingsOk] using hok
      · simp [fsListingsOk] at hok
    obtain ⟨hlf, hcs⟩ := hok2
    subst hlf
    by_cases hpr : h._shouldFilterDirectory rootV ⟨p, d, a⟩ = true
    · rw [search_pruned h rootV p d (.dir a false cs) tracked (by simpa [FSNode.attrsOf] using hpr)]
      rfl
    · have hpr2 : h._shouldFilterDirectory rootV ⟨p, d, a⟩ = false := by
        simpa using hpr
      rw [search_dir_unfold h rootV p d a cs tracked hpr2]
      have h1 := searchChildren_ok_of_listingsOk h rootV p d cs tracked hcs
      cases hres : FileHound._searchChildren h rootV p d cs tracked with
      | error e => rw [hres] at h1; simp [isErr] at h1
      | ok pr =>
        obtain ⟨mapped, tr⟩ := pr
        simp [isErr]
/-- Forest version of search_ok_of_listingsOk. -/
theorem searchChildren_ok_of_listingsOk (h : FileHound) (rootV : FileView) (p : String)
    (d : Nat) (cs : FSList) (tracked : List FileView)
    (hok : fsListingsOkList cs = true) :
    isErr (FileHound._searchChildren h rootV p d cs tracked) = false := by
  cases cs with
  | nil => simp [FileHound._searchChildren, isErr]
  | cons c rest =>
    have hok2 : fsListingsOk c = true ∧ fsListingsOkList rest = true := by
      have := hok
      simp only [fsListingsOkList, Bool.and_eq_true] at this
      exact this
    obtain ⟨hc, hrest⟩ := hok2
    cases hd : (if c.attrsOf.dirCheckFails then false else c.isDirNode) with
    | false =>
      rw [searchChildren_cons_ndir h rootV p d c rest tracked hd]
      have h2 := searchChildren_ok_of_listingsOk h rootV p d rest tracked hrest
      cases hres : FileHound._searchChildren h rootV p d rest tracked with
      | error e => rw [hres] at h2; simp [isErr] at h2
      | ok pr =>
        obtain ⟨subs, tr2⟩ := pr
        simp [isErr]
    | true =>
      have hcdir : c.isDirNode = true := by
        cases hcf : c.attrsOf.dirCheckFails
        · rw [hcf] at hd; simpa using hd
        · rw [hcf] at hd; simp at hd
      rw [searchChildren_cons_dir h rootV p d c rest tracked hd]
      have h1 := search_ok_of_listingsOk h rootV (p ++ "/" ++ c.attrsOf.name) (d + 1) c
        (if h._shouldFilterDirectory rootV ⟨p ++ "/" ++ c.attrsOf.name, d + 1, c.attrsOf⟩
          then tracked else tracked ++ [⟨p ++ "/" ++ c.attrsOf.name, d + 1, c.attrsOf⟩])
        hc hcdir
      cases hres : FileHound._search h rootV (p ++ "/" ++ c.attrsOf.name) (d + 1) c
          (if h._shouldFilterDirectory rootV ⟨p ++ "/" ++ c.attrsOf.name, d + 1, c.attrsOf⟩
            then tracked else tracked ++ [⟨p ++ "/" ++ c.attrsOf.name, d + 1, c.attrsOf⟩]) with
      | error e => rw [hres] at h1; simp [isErr] at h1
      | ok pr =>
        obtain ⟨sub, tr2⟩ := pr
        dsimp only
        have h2 := searchChildren_ok_of_listingsOk h rootV p d rest tr2 hrest
        cases hres2 : FileHound._searchChildren h rootV p d rest tr2 with
        | error e => rw [hres2] at h2; simp [isErr] at h2
        | ok pr2 =>
          obtain ⟨subs, tr3⟩ := pr2
          simp [isErr]
end

mutual
/-- With hidden-directory pruning enabled, every file produced by a visit is
reachable without passing through a hidden directory. -/
theorem search_files_clean (h : FileHound) (rootV : FileView) (p : String) (d : Nat)
    (n : FSNode) (tracked files tr : List FileView)
    (hhid : h._ignoreHiddenDirectories = true)
    (hres : FileHound._search h rootV p d n tracked = .ok (files, tr))
    (f : FileView) (hf : f ∈ files) : f ∈ cleanEntries p d n := by
  by_cases hpr : h._shouldFilterDirectory rootV ⟨p, d, n.attrsOf⟩ = true
  · rw [search_pruned h rootV p d n tracked hpr] at hres
    simp only [Except.ok.injEq, Prod.mk.injEq] at hres
    obtain ⟨hm, _⟩ := hres
    rw [← hm] at hf
    simp at hf
  · have hpr2 : h._shouldFilterDirectory rootV ⟨p, d, n.attrsOf⟩ = false := by simpa using hpr
    cases n with
    | file a => simp [FileHound._search, hpr2] at hres
    | dir a lf cs =>
      cases lf with
      | true =>
        rw [search_dir_listfail h rootV p d a cs tracked
          (by simpa [FSNode.attrsOf] using hpr2)] at hres
        simp at hres
      | false =>
        rw [search_dir_unfold h rootV p d a cs tracked
          (by simpa [FSNode.attrsOf] using hpr2)] at hres
        cases hcs : FileHound._searchChildren h rootV p d cs tracked with
        | error e => rw [hcs] at hres; simp at hres
        | ok pr =>
          obtain ⟨mapped, tr2⟩ := pr
          rw [hcs] at hres
          dsimp only at hres
          simp only [Except.ok.injEq, Prod.mk.injEq] at hres
          obtain ⟨hm, _⟩ := hres
          rw [← hm] at hf
          have hf2 : f ∈ mapped := List.mem_of_mem_filter hf
          have hcl := searchChildren_clean h rootV p d cs tracked mapped tr2 hhid hcs f hf2
          simpa [cleanEntries] using hcl
/-- Forest version of search_files_clean. -/
theorem searchChildren_clean (h : FileHound) (rootV : FileView) (p : String) (d : Nat)
    (cs : FSList) (tracked mapped tr : List FileView)
    (hhid : h._ignoreHiddenDirectories = true)
    (hres : FileHound._searchChildren h rootV p d cs tracked = .ok (mapped, tr))
    (f : FileView) (hf : f ∈ mapped) : f ∈ cleanEntriesList p d cs := by
  cases cs with
  | nil =>
    simp only [FileHound._searchChildren, Except.ok.injEq, Prod.mk.injEq] at hres
    obtain ⟨hm, _⟩ := hres
    rw [← hm] at hf
    simp at hf
  | cons c rest =>
    cases hd : (if c.attrsOf.dirCheckFails then false else c.isDirNode) with
    | false =>
      rw [searchChildren_cons_ndir h rootV p d c rest tracked hd] at hres
      cases hrest : FileHound._searchChildren h rootV p d rest tracked with
      | error e => rw [hrest] at hres; simp at hres
      | ok pr =>
        obtain ⟨subs, tr2⟩ := pr
        rw [hrest] at hres
        dsimp only at hres
        simp only [Except.ok.injEq, Prod.mk.injEq] at hres
        obtain ⟨hm, _⟩ := hres
        rw [← hm] at hf
        rcases List.mem_cons.mp hf with hcv | hfs
        · subst hcv
          simp [cleanEntriesList]
        · have := searchChildren_clean h rootV p d rest tracked subs tr2 hhid hrest f hfs
          simp only [cleanEntriesList, List.mem_append]
          exact Or.inr this
    | true =>
      have hcdir : c.isDirNode = true := by
        cases hcf : c.attrsOf.dirCheckFails
        · rw [hcf] at hd; simpa using hd
        · rw [hcf] at hd; simp at hd
      rw [searchChildren_cons_dir h rootV p d c rest tracked hd] at hres
      cases hsub : FileHound._search h rootV (p ++ "/" ++ c.attrsOf.name) (d + 1) c
          (if h._shouldFilterDirectory rootV ⟨p ++ "/" ++ c.attrsOf.name, d + 1, c.attrsOf⟩
            then tracked else tracked ++ [⟨p ++ "/" ++ c.attrsOf.name, d + 1, c.attrsOf⟩]) with
      | error e => rw [hsub] at hres; simp at hres
      | ok pr =>
        obtain ⟨sub, tr2⟩ := pr
        rw [hsub] at hres
        dsimp only at hres
        cases hrest : FileHound._searchChildren h rootV p d rest tr2 with
        | error e => rw [hrest] at hres; simp at hres
        | ok pr2 =>
          obtain ⟨subs, tr3⟩ := pr2
          rw [hrest] at hres
          dsimp only at hres
          simp only [Except.ok.injEq, Prod.mk.injEq] at hres
          obtain ⟨hm, _⟩ := hres
          rw [← hm] at hf
          rcases List.mem_append.mp hf with hfs | hfr
          · by_cases hhide : c.attrsOf.hidden = true
            · have hprc : h._shouldFilterDirectory rootV
                  ⟨p ++ "/" ++ c.attrsOf.name, d + 1, c.attrsOf⟩ = true := by
                simp [FileHound._shouldFilterDirectory, hhid, hhide]
              rw [search_pruned h rootV (p ++ "/" ++ c.attrsOf.name) (d + 1) c _ hprc] at hsub
              simp only [Except.ok.injEq, Prod.mk.injEq] at hsub
              obtain ⟨hs, _⟩ := hsub
              rw [← hs] at hfs
              simp at hfs
            · have hhide2 : c.attrsOf.hidden = false := by simpa using hhide
              have hfc := search_files_clean h rootV (p ++ "/" ++ c.attrsOf.name) (d + 1) c
                (if h._shouldFilterDirectory rootV ⟨p ++ "/" ++ c.attrsOf.name, d + 1, c.attrsOf⟩
                  then tracked else tracked ++ [⟨p ++ "/" ++ c.attrsOf.name, d + 1, c.attrsOf⟩])
                sub tr2 hhid hsub f hfs
              have hcond : (c.isDirNode && !c.attrsOf.hidden) = true := by
                simp [hcdir, hhide2]
              simp only [cleanEntriesList, hcond, if_true, List.mem_append, List.mem_cons]
              exact Or.inl (Or.inr hfc)
          · have := searchChildren_clean h rootV p d rest tr2 subs tr3 hhid hrest f hfr
            simp only [cleanEntriesList, List.mem_append]
            exact Or.inr this
end

/-- With a configured maximum depth of zero, processing the children of the
root directory tracks no directory and yields only entries at depth one
below the root (every subdirectory is pruned before recursion). -/
theorem searchChildren_depth0 (h : FileHound) (rootV : FileView) (p : String) (d : Nat)
    (cs : FSList) (tracked : List FileView)
    (hmd : h.maxDepth = some 0) (hrd : rootV.depth = d) :
    ∃ mapped, FileHound._searchChildren h rootV p d cs tracked = .ok (mapped, tracked)
      ∧ ∀ f ∈ mapped, f.depth = d + 1 := by
  cases cs with
  | nil => exact ⟨[], by simp [FileHound._searchChildren], by simp⟩
  | cons c rest =>
    cases hd : (if c.attrsOf.dirCheckFails then false else c.isDirNode) with
    | true =>
      have hpr : h._shouldFilterDirectory rootV
          ⟨p ++ "/" ++ c.attrsOf.name, d + 1, c.attrsOf⟩ = true := by
        simp only [FileHound._shouldFilterDirectory, FileHound._atMaxDepth, hmd]
        have hlt : 0 < d + 1 - rootV.depth := by omega
        simp [hlt]
      obtain ⟨mapped, hm, hdep⟩ := searchChildren_depth0 h rootV p d rest tracked hmd hrd
      refine ⟨mapped, ?_, hdep⟩
      rw [searchChildren_cons_dir h rootV p d c rest tracked hd]
      simp only [hpr, if_true]
      rw [search_pruned h rootV (p ++ "/" ++ c.attrsOf.name) (d + 1) c tracked hpr]
      dsimp only
      rw [hm]
      simp
    | false =>
      obtain ⟨mapped, hm, hdep⟩ := searchChildren_depth0 h rootV p d rest tracked hmd hrd
      refine ⟨⟨p ++ "/" ++ c.attrsOf.name, d + 1, c.attrsOf⟩ :: mapped, ?_, ?_⟩
      · rw [searchChildren_cons_ndir h rootV p d c rest tracked hd]
        rw [hm]
      · intro f hf
        rcases List.mem_cons.mp hf with hcv | hfm
        · subst hcv; rfl
        · exact hdep f hfm

/-- With a configured maximum depth of zero, a successful visit of a root
yields only entries at depth one below the root and tracks no directory. -/
theorem search_depth0 (h : FileHound) (rootV : FileView) (p : String) (d : Nat)
    (n : FSNode) (files tr : List FileView)
    (hmd : h.maxDepth = some 0) (hrd : rootV.depth = d)
    (hres : FileHound._search h rootV p d n [] = .ok (files, tr)) :
    (∀ f ∈ files, f.depth = d + 1) ∧ tr = [] := by
  by_cases hpr : h._shouldFilterDirectory rootV ⟨p, d, n.attrsOf⟩ = true
  · rw [search_pruned h rootV p d n [] hpr] at hres
    simp only [Except.ok.injEq, Prod.mk.injEq] at hres
    obtain ⟨hm, htr⟩ := hres
    constructor
    · rw [← hm]; simp
    · exact htr.symm
  · have hpr2 : h._shouldFilterDirectory rootV ⟨p, d, n.attrsOf⟩ = false := by simpa using hpr
    cases n with
    | file a =>
      simp [FileHound._search, hpr2] at hres
    | dir a lf cs =>
      cases lf with
      | true =>
        rw [search_dir_listfail h rootV p d a cs []
          (by simpa [FSNode.attrsOf] using hpr2)] at hres
        simp at hres
      | false =>
        rw [search_dir_unfold h rootV p d a cs []
          (by simpa [FSNode.attrsOf] using hpr2)] at hres
        obtain ⟨mapped, hm, hdep⟩ := searchChildren_depth0 h rootV p d cs [] hmd hrd
        rw [hm] at hres
        dsimp only at hres
        simp only [Except.ok.injEq, Prod.mk.injEq] at hres
        obtain ⟨hfiles, htr⟩ := hres
        refine ⟨?_, htr.symm⟩
        intro f hf
        rw [← hfiles] at hf
        exact hdep f (List.mem_of_mem_filter hf)

/-- On a fresh (non-sync) instance whose root is not itself pruned, the
asynchronous per-root search settles exactly like the blocking per-root
search run on the instance with the sync flag set. -/
theorem searchAsync_eq_searchSync (h : FileHound) (fs : Fs) (p : String)
    (hsync : h._sync = false) (hpr : rootPruned fs h p = false) :
    (FileHound._searchAsync h fs p).1 = FileHound._searchSync { h with _sync := true } fs p := by
  cases hfs : fs p with
  | none => simp [FileHound._searchAsync, FileHound._searchSync, hfs]
  | some pr =>
    obtain ⟨d, n⟩ := pr
    have hpr2 : h._shouldFilterDirectory ⟨p, d, n.attrsOf⟩ ⟨p, d, n.attrsOf⟩ = false := by
      simpa [rootPruned, hfs] using hpr
    have hcongr := search_congr { h with _sync := true } h rfl rfl rfl ⟨p, d, n.attrsOf⟩ p d n []
    simp only [FileHound._searchAsync, FileHound._searchSync, hfs, hcongr]
    simp only [hpr2, hsync]
    cases FileHound._search h ⟨p, d, n.attrsOf⟩ p d n [] with
    | error e => rfl
    | ok pr2 =>
      obtain ⟨files, tracked⟩ := pr2
      by_cases hdo : h._directoriesOnly = true <;> simp [hdo]

/-- If the blocking per-root search fails, so does the asynchronous one. -/
theorem searchAsync_isErr_of_syncErr (h : FileHound) (fs : Fs) (p : String)
    (herr : isErr (FileHound._searchSync { h with _sync := true } fs p) = true) :
    isErr (FileHound._searchAsync h fs p).1 = true := by
  cases hfs : fs p with
  | none => simp [FileHound._searchAsync, hfs, isErr]
  | some pr =>
    obtain ⟨d, n⟩ := pr
    have hcongr := search_congr { h with _sync := true } h rfl rfl rfl ⟨p, d, n.attrsOf⟩ p d n []
    simp only [FileHound._searchSync, hfs, hcongr] at herr
    simp only [FileHound._searchAsync, hfs]
    cases hres : FileHound._search h ⟨p, d, n.attrsOf⟩ p d n [] with
    | error e => simp [isErr]
    | ok pr2 =>
      obtain ⟨files, tracked⟩ := pr2
      rw [hres] at herr
      simp [isErr] at herr

/-- The per-root asynchronous search emits only match notifications. -/
theorem searchAsync_events_matchOnly (h : FileHound) (fs : Fs) (p : String) (ev : FHEvent)
    (he : ev ∈ (FileHound._searchAsync h fs p).2) : ∃ q, ev = .matchEv q := by
  unfold FileHound._searchAsync at he
  cases hfs : fs p with
  | none => rw [hfs] at he; simp at he
  | some pr =>
    obtain ⟨d, n⟩ := pr
    rw [hfs] at he
    dsimp only at he
    cases hres : FileHound._search h ⟨p, d, n.attrsOf⟩ p d n [] with
    | error e2 => rw [hres] at he; simp at he
    | ok pr2 =>
      obtain ⟨files, tracked⟩ := pr2
      rw [hres] at he
      dsimp only at he
      split at he
      · simp at he
      · split at he
        · simp at he
        · simp only [List.mem_map] at he
          obtain ⟨f, _, hfe⟩ := he
          exact ⟨f.path, hfe.symm⟩

/-- Every event list of a find run is a block of match notifications
followed by a single error notification exactly when the run failed, and
always terminated by a single end notification. -/
theorem find_shape (fs : Fs) (h0 : FileHound) :
    ∃ ms,
      (∀ ev ∈ ms, ∃ q, ev = .matchEv q) ∧
      ((isErr (FileHound.find fs h0).1 = false ∧
          (FileHound.find fs h0).2.1 = ms ++ [.endEv]) ∨
       (isErr (FileHound.find fs h0).1 = true ∧
          (FileHound.find fs h0).2.1 = ms ++ [.errorEv, .endEv])) := by
  unfold FileHound.find
  dsimp only
  have hmatches : ∀ ev ∈ (((h0._initFilters).getSearchPaths).map
      (fun p => FileHound._searchAsync (h0._initFilters) fs p)).map Prod.snd |>.flatten,
      ∃ q, ev = .matchEv q := by
    intro ev hev
    rw [List.mem_flatten] at hev
    obtain ⟨l, hl, hevl⟩ := hev
    rw [List.mem_map] at hl
    obtain ⟨pr, hpr, hprl⟩ := hl
    rw [List.mem_map] at hpr
    obtain ⟨q, hq, hqpr⟩ := hpr
    subst hqpr
    subst hprl
    exact searchAsync_events_matchOnly (h0._initFilters) fs q ev hevl
  cases hc : collectE ((((h0._initFilters).getSearchPaths).map
      (fun p => FileHound._searchAsync (h0._initFilters) fs p)).map Prod.fst) with
  | error e =>
    exact ⟨_, hmatches, Or.inr ⟨rfl, rfl⟩⟩
  | ok lists =>
    cases lists with
    | nil => exact ⟨_, hmatches, Or.inr ⟨rfl, rfl⟩⟩
    | cons l ls => exact ⟨_, hmatches, Or.inl ⟨rfl, rfl⟩⟩

/-- A fallible map over a nonempty list never returns an empty result list. -/
theorem mapE_cons_ok (f : α → Except JsErr β) (a : α) (l : List α) (bs : List β)
    (h : mapE f (a :: l) = .ok bs) : ∃ b bs2, bs = b :: bs2 := by
  unfold mapE at h
  cases hfa : f a with
  | error e => rw [hfa] at h; simp at h
  | ok b =>
    rw [hfa] at h
    cases hml : mapE f l with
    | error e => rw [hml] at h; simp at h
    | ok bs2 =>
      rw [hml] at h
      simp only [Except.ok.injEq] at h
      exact ⟨b, bs2, h.symm⟩

/-- If searching some configured root fails on the blocking path, the whole
findSync run fails. -/
theorem findSync_isErr_of_root (fs : Fs) (h0 : FileHound) (p : String)
    (hmem : p ∈ (h0._initFilters).getSearchPaths)
    (hfail : isErr (FileHound._searchSync { h0._initFilters with _sync := true } fs p) = true) :
    isErr (FileHound.findSync fs h0).1 = true := by
  unfold FileHound.findSync
  dsimp only
  cases hroots : (h0._initFilters).getSearchPaths with
  | nil => rw [hroots] at hmem; simp at hmem
  | cons r rs =>
    rw [hroots] at hmem
    dsimp only
    have hm := mapE_isErr_of_mem
      (fun q => FileHound._searchSync { h0._initFilters with _sync := true } fs q)
      (r :: rs) p hmem hfail
    cases hmE : mapE
        (fun q => FileHound._searchSync { h0._initFilters with _sync := true } fs q)
        (r :: rs) with
    | error e => rfl
    | ok lists =>
      rw [hmE] at hm
      simp [isErr] at hm

/-- If the asynchronous search of some configured root fails, the whole find
run fails. -/
theorem find_isErr_of_root (fs : Fs) (h0 : FileHound) (p : String)
    (hmem : p ∈ (h0._initFilters).getSearchPaths)
    (hfail : isErr (FileHound._searchAsync (h0._initFilters) fs p).1 = true) :
    isErr (FileHound.find fs h0).1 = true := by
  unfold FileHound.find
  dsimp only
  have hcoll : isErr (collectE (List.map Prod.fst
      (List.map (fun q => FileHound._searchAsync (h0._initFilters) fs q)
        ((h0._initFilters).getSearchPaths)))) = true := by
    rw [List.map_map, collectE_map_eq_mapE]
    exact mapE_isErr_of_mem _ _ p hmem hfail
  cases hc : collectE (List.map Prod.fst
      (List.map (fun q => FileHound._searchAsync (h0._initFilters) fs q)
        ((h0._initFilters).getSearchPaths))) with
  | error e => rfl
  | ok lists => rw [hc] at hcoll; simp [isErr] at hcoll

/-- On a fresh instance none of whose roots is itself pruned, find settles
with exactly the outcome of findSync (same matches in the same order, or a
failure in both runs). -/
theorem find_eq_findSync (fs : Fs) (h0 : FileHound)
    (hsync : h0._sync = false)
    (hroots : ∀ p ∈ (h0._initFilters).getSearchPaths, rootPruned fs h0 p = false) :
    (FileHound.find fs h0).1 = (FileHound.findSync fs h0).1 := by
  unfold FileHound.find FileHound.findSync
  dsimp only
  rw [List.map_map, collectE_map_eq_mapE]
  have hmap : mapE (Prod.fst ∘ fun p => FileHound._searchAsync (h0._initFilters) fs p)
      ((h0._initFilters).getSearchPaths)
      = mapE (fun p => FileHound._searchSync { h0._initFilters with _sync := true } fs p)
        ((h0._initFilters).getSearchPaths) := by
    apply mapE_congr
    intro p hp
    have hprun : rootPruned fs (h0._initFilters) p = false := by
      have := hroots p hp
      unfold rootPruned at this ⊢
      cases hfs : fs p with
      | none => rfl
      | some pr =>
        obtain ⟨d, n⟩ := pr
        rw [hfs] at this
        dsimp only at this ⊢
        rw [shouldFilter_congr (h0._initFilters) h0 rfl rfl]
        exact this
    simp only [Function.comp]
    exact searchAsync_eq_searchSync (h0._initFilters) fs p hsync hprun
  rw [hmap]
  cases hroots2 : (h0._initFilters).getSearchPaths with
  | nil => rfl
  | cons r rs =>
    dsimp only
    cases hmE : mapE
        (fun p => FileHound._searchSync { h0._initFilters with _sync := true } fs p)
        (r :: rs) with
    | error e => rfl
    | ok lists =>
      obtain ⟨b, bs2, hbs⟩ := mapE_cons_ok _ r rs lists hmE
      subst hbs
      rfl

/-- The state returned by findSync: the instance with the effective
predicate recomputed, and with the sync flag set exactly when the root list
was nonempty (the flag is set by _searchSync on its first call and never
reset). -/
theorem findSync_state (fs : Fs) (h : FileHound) :
    (FileHound.findSync fs h).2 =
      (match (h._initFilters).getSearchPaths with
       | [] => h._initFilters
       | _ :: _ => { h._initFilters with _sync := true }) := by
  unfold FileHound.findSync
  dsimp only
  cases hroots : (h._initFilters).getSearchPaths with
  | nil => rfl
  | cons r rs =>
    dsimp only
    cases mapE (fun p => FileHound._searchSync { h._initFilters with _sync := true } fs p)
        (r :: rs) with
    | error e => rfl
    | ok lists =>
      cases lists with
      | nil => rfl
      | cons l ls => rfl

/-- The state returned by find: only the effective predicate is recomputed. -/
theorem find_state (fs : Fs) (h : FileHound) :
    (FileHound.find fs h).2.2 = h._initFilters := by
  unfold FileHound.find
  dsimp only
  cases collectE (List.map Prod.fst
      (List.map (fun p => FileHound._searchAsync (h._initFilters) fs p)
        ((h._initFilters).getSearchPaths))) with
  | error e => rfl
  | ok lists =>
    cases lists with
    | nil => rfl
    | cons l ls => rfl

/-- C1 counterexample: with hidden-directory pruning enabled and a hidden
directory configured as the root, findSync returns an empty match list but
find fails (inside _searchAsync, _search returns a plain array for the
pruned root, and calling .then on it raises a TypeError), so the two
pipelines do not produce identical match sets for this configuration. -/
theorem C1_counterexample :
    (FileHound.findSync fsHidden
        (((FileHound.create "/x").paths ["/h/.p"]).ignoreHiddenDirectories)).1 = .ok [] ∧
    (FileHound.find fsHidden
        (((FileHound.create "/x").paths ["/h/.p"]).ignoreHiddenDirectories)).1
      = .error .thenNotAFunction :=
  ⟨by decide, by decide⟩

/-- C1 (amended): on an instance whose sync flag is unset (as on any freshly
configured instance) and none of whose resolved roots is itself pruned
(hidden while hidden-directory pruning is on), the asynchronous find
pipeline and the synchronous findSync pipeline produce identical match
lists for a static filesystem; when one fails, so does the other and
neither produces a match list. -/
theorem C1_find_findSync_agree (fs : Fs) (h0 : FileHound)
    (hsync : h0._sync = false)
    (hroots : ∀ p ∈ (h0._initFilters).getSearchPaths, rootPruned fs h0 p = false) :
    okResults (FileHound.find fs h0).1 = okResults (FileHound.findSync fs h0).1 := by
  rw [find_eq_findSync fs h0 hsync hroots]

/-- Witness for C1_find_findSync_agree at the concrete spec tree. -/
theorem C1_find_findSync_agree_witness :
    ((FileHound.create "/x").paths ["/r"])._sync = false ∧
    (∀ p ∈ (((FileHound.create "/x").paths ["/r"])._initFilters).getSearchPaths,
      rootPruned fsR ((FileHound.create "/x").paths ["/r"]) p = false) ∧
    okResults (FileHound.find fsR ((FileHound.create "/x").paths ["/r"])).1
      = okResults (FileHound.findSync fsR ((FileHound.create "/x").paths ["/r"])).1 :=
  ⟨by decide, by decide,
    C1_find_findSync_agree fsR ((FileHound.create "/x").paths ["/r"]) (by decide) (by decide)⟩

/-- C2: a directory-listing failure at any reached point of any configured
root aborts the whole search: findSync propagates the error synchronously,
find settles with an error rather than any partial match list, the find run
emits exactly one error notification, and the final notification is the end
notification. -/
theorem C2_listing_failure_fatal (fs : Fs) (h0 : FileHound) (p : String)
    (hmem : p ∈ (h0._initFilters).getSearchPaths)
    (hfail : isErr (FileHound._searchSync { h0._initFilters with _sync := true } fs p) = true) :
    isErr (FileHound.findSync fs h0).1 = true ∧
    isErr (FileHound.find fs h0).1 = true ∧
    List.count FHEvent.errorEv (FileHound.find fs h0).2.1 = 1 ∧
    (FileHound.find fs h0).2.1.getLast? = some FHEvent.endEv := by
  have h1 := findSync_isErr_of_root fs h0 p hmem hfail
  have h2 := find_isErr_of_root fs h0 p hmem
    (searchAsync_isErr_of_syncErr (h0._initFilters) fs p hfail)
  obtain ⟨ms, hms, hcase⟩ := find_shape fs h0
  rcases hcase with ⟨hok, _⟩ | ⟨_, hev⟩
  · rw [hok] at h2; exact absurd h2 (by simp)
  · refine ⟨h1, h2, ?_, ?_⟩
    · rw [hev, List.count_append]
      have hcnt : List.count FHEvent.errorEv ms = 0 := by
        rw [List.count_eq_zero]
        intro hmemv
        obtain ⟨q, hq⟩ := hms _ hmemv
        simp at hq
      rw [hcnt]
      decide
    · rw [hev]
      rw [show ms ++ [FHEvent.errorEv, FHEvent.endEv]
          = (ms ++ [FHEvent.errorEv]) ++ [FHEvent.endEv] by simp]
      exact List.getLast?_concat _

/-- Witness for C2_listing_failure_fatal at the spec failure scenario: the
listing of the subdirectory of /r fails while /r/a.txt would have matched. -/
theorem C2_listing_failure_fatal_witness :
    ("/r" ∈ (((FileHound.create "/x").paths ["/r"])._initFilters).getSearchPaths) ∧
    isErr (FileHound._searchSync
      { ((FileHound.create "/x").paths ["/r"])._initFilters with _sync := true }
      fsRFail "/r") = true ∧
    (isErr (FileHound.findSync fsRFail ((FileHound.create "/x").paths ["/r"])).1 = true ∧
     isErr (FileHound.find fsRFail ((FileHound.create "/x").paths ["/r"])).1 = true ∧
     List.count FHEvent.errorEv
       (FileHound.find fsRFail ((FileHound.create "/x").paths ["/r"])).2.1 = 1 ∧
     (FileHound.find fsRFail ((FileHound.create "/x").paths ["/r"])).2.1.getLast?
       = some FHEvent.endEv) :=
  ⟨by decide, by decide,
    C2_listing_failure_fatal fsRFail ((FileHound.create "/x").paths ["/r"]) "/r"
      (by decide) (by decide)⟩

/-- C3: a failure of the per-entry directory check is absorbed locally: the
child is processed exactly as a non-directory entry with the same
attributes would be (it is not recursed into, not tracked, and flows
through the effective predicate like a file), and as long as every
directory listing succeeds a visit never fails, whatever directory-check
failures occur --- in this failure model the check failure is the only
absorbed one, a listing failure being fatal by C2. -/
theorem C3_dircheck_failure_absorbed :
    (∀ (h : FileHound) (rootV : FileView) (p : String) (d : Nat) (a : FileAttrs)
       (lf : Bool) (cs rest : FSList) (tracked : List FileView),
       a.dirCheckFails = true →
       FileHound._searchChildren h rootV p d (.cons (.dir a lf cs) rest) tracked =
         FileHound._searchChildren h rootV p d (.cons (.file a) rest) tracked) ∧
    (∀ (h : FileHound) (rootV : FileView) (p : String) (d : Nat) (n : FSNode)
       (tracked : List FileView),
       fsListingsOk n = true → n.isDirNode = true →
       isErr (FileHound._search h rootV p d n tracked) = false) := by
  constructor
  · intro h rootV p d a lf cs rest tracked hdcf
    rw [searchChildren_cons_ndir h rootV p d (.dir a lf cs) rest tracked
      (by simp [FSNode.attrsOf, hdcf])]
    rw [searchChildren_cons_ndir h rootV p d (.file a) rest tracked
      (by simp [FSNode.attrsOf, hdcf])]
    rfl
  · exact fun h rootV p d n tracked hok hdir =>
      search_ok_of_listingsOk h rootV p d n tracked hok hdir

/-- Witness for C3_dircheck_failure_absorbed on the concrete tree with one
check-failing directory entry. -/
theorem C3_dircheck_failure_absorbed_witness :
    (checkFailDirAttrs "odd").dirCheckFails = true ∧
    FileHound._searchChildren ((FileHound.create "/x")._initFilters) rvC "/c" 1
        (.cons (.dir (checkFailDirAttrs "odd") false innerC) restC) []
      = FileHound._searchChildren ((FileHound.create "/x")._initFilters) rvC "/c" 1
        (.cons (.file (checkFailDirAttrs "odd")) restC) [] ∧
    (fsListingsOk treeChk = true ∧ FSNode.isDirNode treeChk = true ∧
     isErr (FileHound._search ((FileHound.create "/x")._initFilters) rvC "/c" 1
       treeChk []) = false) :=
  ⟨by decide,
   C3_dircheck_failure_absorbed.1 ((FileHound.create "/x")._initFilters) rvC "/c" 1
     (checkFailDirAttrs "odd") false innerC restC [] (by decide),
   by decide, by decide,
   C3_dircheck_failure_absorbed.2 ((FileHound.create "/x")._initFilters) rvC "/c" 1
     treeChk [] (by decide) (by decide)⟩

/-- C4 counterexample: on the same one-file filesystem, a fresh instance
finds the file, but after a findSync run the same instance rejects every
subsequent find with a TypeError (the sync flag set by _searchSync makes
_search return a plain array, and _searchAsync calls .then on it), so a
find after a findSync does not behave like a find on a fresh identically
configured instance. -/
theorem C4_counterexample :
    (FileHound.find fsW (FileHound.create "/w")).1 = .ok [.plain "/w/a.txt"] ∧
    (FileHound.find fsW ((FileHound.findSync fsW (FileHound.create "/w")).2)).1
      = .error .thenNotAFunction :=
  ⟨by decide, by decide⟩

/-- C4 (amended): the effective predicate and the resolved roots are indeed
recomputed at the start of each invocation, so repeated findSync runs agree
with each other and repeated find runs agree with each other on the same
instance; but findSync permanently sets the sync flag of the instance, so a
find run after a findSync run fails with a TypeError whenever the same
fresh find would have succeeded, instead of behaving like a fresh find. -/
theorem C4_reuse_amended :
    (∀ (fs : Fs) (h : FileHound),
       (FileHound.findSync fs ((FileHound.findSync fs h).2)).1
         = (FileHound.findSync fs h).1) ∧
    (∀ (fs : Fs) (h : FileHound),
       (FileHound.find fs ((FileHound.find fs h).2.2)).1 = (FileHound.find fs h).1) ∧
    (∀ (fs : Fs) (h : FileHound) (l : List MatchResult),
       h._sync = false → (FileHound.find fs h).1 = .ok l →
       (FileHound.find fs ((FileHound.findSync fs h).2)).1
         = .error .thenNotAFunction) := by
  refine ⟨?_, ?_, ?_⟩
  · intro fs h
    rw [findSync_state fs h]
    cases hroots : (h._initFilters).getSearchPaths with
    | nil =>
      dsimp only
      unfold FileHound.findSync
      dsimp only
      have hidem : (h._initFilters)._initFilters = h._initFilters := rfl
      rw [hidem, hroots]
    | cons r rs =>
      dsimp only
      unfold FileHound.findSync
      dsimp only
      have hidem : ({ h._initFilters with _sync := true } : FileHound)._initFilters
          = { h._initFilters with _sync := true } := rfl
      rw [hidem]
      have hroots2 : ({ h._initFilters with _sync := true } : FileHound).getSearchPaths
          = r :: rs := hroots
      rw [hroots2, hroots]
  · intro fs h
    rw [find_state fs h]
    unfold FileHound.find
    dsimp only
    have hidem : (h._initFilters)._initFilters = h._initFilters := rfl
    rw [hidem]
  · intro fs h l hsync hok
    rw [findSync_state fs h]
    unfold FileHound.find at hok
    dsimp only at hok
    cases hroots : (h._initFilters).getSearchPaths with
    | nil =>
      rw [hroots] at hok
      simp [collectE] at hok
    | cons r rs =>
      rw [hroots] at hok
      simp only [List.map_cons] at hok
      dsimp only
      cases hfirst : (FileHound._searchAsync (h._initFilters) fs r).1 with
      | error e =>
        rw [hfirst] at hok
        simp [collectE] at hok
      | ok files1 =>
        have hasync2 : (FileHound._searchAsync ({ h._initFilters with _sync := true })
            fs r).1 = .error .thenNotAFunction := by
          unfold FileHound._searchAsync at hfirst ⊢
          cases hfs : fs r with
          | none => rw [hfs] at hfirst; simp at hfirst
          | some pr =>
            obtain ⟨d, n⟩ := pr
            rw [hfs] at hfirst
            dsimp only at hfirst ⊢
            have hcongr := search_congr { h._initFilters with _sync := true }
              (h._initFilters) rfl rfl rfl ⟨r, d, n.attrsOf⟩ r d n []
            rw [hcongr]
            cases hres : FileHound._search (h._initFilters) ⟨r, d, n.attrsOf⟩ r d n [] with
            | error e => rw [hres] at hfirst; simp at hfirst
            | ok pr2 =>
              obtain ⟨files0, tracked0⟩ := pr2
              rw [hres] at hfirst
              dsimp only at hfirst
              by_cases hpr : (h._initFilters)._shouldFilterDirectory
                  ⟨r, d, n.attrsOf⟩ ⟨r, d, n.attrsOf⟩ = true
              · rw [hpr] at hfirst
                simp at hfirst
              · rw [shouldFilter_congr { h._initFilters with _sync := true }
                  (h._initFilters) rfl rfl]
                simp
        unfold FileHound.find
        dsimp only
        have hidem : ({ h._initFilters with _sync := true } : FileHound)._initFilters
            = { h._initFilters with _sync := true } := rfl
        rw [hidem]
        have hroots2 : ({ h._initFilters with _sync := true } : FileHound).getSearchPaths
            = r :: rs := hroots
        rw [hroots2]
        simp only [List.map_cons]
        rw [hasync2]
        simp [collectE]

/-- C5 counterexample: the two supplied strings are distinct raw strings
that normalize to the same path, yet both survive paths() and both appear
among the resolved roots: deduplication is applied before normalization,
not on the normalized results. -/
theorem C5_counterexample :
    pathNormalize "/a//b" = pathNormalize "/a/b" ∧
    ("/a//b" : String) ≠ "/a/b" ∧
    ((FileHound.create "/w").paths ["/a//b", "/a/b"])._searchPaths = ["/a/b", "/a/b"] ∧
    ((FileHound.create "/w").paths ["/a//b", "/a/b"]).getSearchPaths = ["/a/b", "/a/b"] :=
  ⟨by decide, by decide, by decide, by decide⟩

/-- C5 (amended): paths() first removes duplicates among the raw supplied
strings (keeping first occurrences, with no raw duplicates surviving) and
only then normalizes each survivor, so two distinct raw strings that
normalize to the same path both remain as roots. -/
theorem C5_paths_amended (cwd : String) (ps : List String) :
    ((FileHound.create cwd).paths ps)._searchPaths = (jsUniq ps).map pathNormalize ∧
    (jsUniq ps).Nodup ∧
    (∀ s, s ∈ jsUniq ps ↔ s ∈ ps) :=
  ⟨rfl, jsUniq_nodup ps, fun s => jsUniq_mem ps s⟩

/-- C6: descendant roots are dropped exactly when no maximum depth is
configured: getSearchPaths applies reducePaths only for an absent depth
limit and returns the stored paths verbatim otherwise; concretely, of the
roots /a and /a/b only /a survives without a depth limit while both survive
with one. -/
theorem C6_descendant_elimination_iff_no_depth :
    (∀ h : FileHound, h.maxDepth = none →
       h.getSearchPaths = reducePaths h._searchPaths) ∧
    (∀ (h : FileHound) (d : Nat), h.maxDepth = some d →
       h.getSearchPaths = h._searchPaths) ∧
    ((FileHound.create "/w").paths ["/a", "/a/b"]).getSearchPaths = ["/a"] ∧
    (((FileHound.create "/w").paths ["/a", "/a/b"]).depth 3).getSearchPaths
      = ["/a", "/a/b"] := by
  refine ⟨?_, ?_, by decide, by decide⟩
  · intro h hmd
    simp [FileHound.getSearchPaths, hmd]
  · intro h d hmd
    simp [FileHound.getSearchPaths, hmd]

/-- Witness for C6_descendant_elimination_iff_no_depth at concrete roots. -/
theorem C6_descendant_elimination_iff_no_depth_witness :
    ((FileHound.create "/w").paths ["/a", "/a/b"]).maxDepth = none ∧
    ((FileHound.create "/w").paths ["/a", "/a/b"]).getSearchPaths
      = reducePaths (((FileHound.create "/w").paths ["/a", "/a/b"]))._searchPaths ∧
    (((FileHound.create "/w").paths ["/a", "/a/b"]).depth 3).maxDepth = some 3 ∧
    (((FileHound.create "/w").paths ["/a", "/a/b"]).depth 3).getSearchPaths
      = (((FileHound.create "/w").paths ["/a", "/a/b"]).depth 3)._searchPaths :=
  ⟨by decide,
   C6_descendant_elimination_iff_no_depth.1 ((FileHound.create "/w").paths ["/a", "/a/b"])
     (by decide),
   by decide,
   C6_descendant_elimination_iff_no_depth.2.1
     (((FileHound.create "/w").paths ["/a", "/a/b"]).depth 3) 3 (by decide)⟩

/-- C7: with the negation toggle set, the effective predicate is the single
logical negation of the conjunction of all added filters; discard filters
are ordinary chain members (each a negated pattern test), so they combine
with the rest of the chain by conjunction inside the single optional
negation, and discard leaves the toggle unchanged. -/
theorem C7_negation_toggle (h : FileHound) (reTest : String → String → Bool)
    (pats : List String) (v : FileView) :
    (h.negateFilters = true → h._newMatcher v = !(compose h._filters v)) ∧
    ((h.discard reTest pats).negateFilters = h.negateFilters) ∧
    ((h.discard reTest pats)._newMatcher v =
       (if h.negateFilters
        then !(compose h._filters v && pats.all (fun pattern => !(reTest pattern v.path)))
        else (compose h._filters v && pats.all (fun pattern => !(reTest pattern v.path))))) := by
  refine ⟨?_, ?_, ?_⟩
  · intro hneg
    simp [FileHound._newMatcher, hneg, negate]
  · rw [discard_eq]
  · rw [discard_eq]
    have hmap : ∀ (qs : List String),
        (List.map (fun pattern => negate (isRegExpMatch reTest pattern)) qs).all
            (fun fn => fn v)
          = qs.all (fun pattern => !(reTest pattern v.path)) := by
      intro qs
      induction qs with
      | nil => rfl
      | cons a as ih => simp [negate, isRegExpMatch, ih]
    by_cases hneg : h.negateFilters = true
    · simp only [FileHound._newMatcher, hneg, negate, compose, List.all_append, if_true]
      rw [hmap]
    · have hneg2 : h.negateFilters = false := by simpa using hneg
      simp only [FileHound._newMatcher, hneg2, compose, List.all_append, Bool.false_eq_true,
        if_false]
      rw [hmap]

/-- Witness for C7_negation_toggle on a negated chain with one extension
filter and one discard pattern. -/
theorem C7_negation_toggle_witness :
    hound7.negateFilters = true ∧
    hound7._newMatcher view7 = !(compose hound7._filters view7) ∧
    ((hound7.discard reTest7 ["tmp"]).negateFilters = hound7.negateFilters) :=
  ⟨by decide,
   (C7_negation_toggle hound7 reTest7 ["tmp"] view7).1 (by decide),
   (C7_negation_toggle hound7 reTest7 ["tmp"] view7).2.1⟩

/-- C8: with a configured maximum depth of zero, every entry returned by a
per-root search sits exactly one level below that root (no grandchild is
ever returned, however deep the tree); concretely, on the spec tree the
depth-zero txt search returns only /r/a.txt. -/
theorem C8_depth_zero_direct_children :
    (∀ (h : FileHound) (fs : Fs) (p : String) (dep : Nat) (n : FSNode)
       (res : List FileView) (f : FileView),
       h.maxDepth = some 0 → fs p = some (dep, n) →
       FileHound._searchSync h fs p = .ok res → f ∈ res → f.depth = dep + 1) ∧
    (FileHound.findSync fsR ((((FileHound.create "/x").paths ["/r"]).ext ["txt"]).depth 0)).1
      = .ok [.plain "/r/a.txt"] := by
  constructor
  · intro h fs p dep n res f hmd hfs hres hf
    unfold FileHound._searchSync at hres
    rw [hfs] at hres
    dsimp only at hres
    cases hsr : FileHound._search h ⟨p, dep, n.attrsOf⟩ p dep n [] with
    | error e => rw [hsr] at hres; simp at hres
    | ok pr =>
      obtain ⟨files, tracked⟩ := pr
      rw [hsr] at hres
      dsimp only at hres
      simp only [Except.ok.injEq] at hres
      obtain ⟨hdep, htr⟩ := search_depth0 h ⟨p, dep, n.attrsOf⟩ p dep n files tracked hmd rfl hsr
      subst htr
      by_cases hdo : h._directoriesOnly = true
      · rw [hdo] at hres
        simp at hres
        subst hres
        simp at hf
      · have hdo2 : h._directoriesOnly = false := by simpa using hdo
        rw [hdo2] at hres
        simp at hres
        subst hres
        exact hdep f hf
  · decide

/-- Witness for C8_depth_zero_direct_children on the spec tree. -/
theorem C8_depth_zero_direct_children_witness :
    hound8.maxDepth = some 0 ∧
    fsR "/r" = some (1, treeR) ∧
    FileHound._searchSync hound8 fsR "/r"
      = .ok [⟨"/r/a.txt", 2, fileAttrs "a.txt" "txt"⟩] ∧
    (⟨"/r/a.txt", 2, fileAttrs "a.txt" "txt"⟩ : FileView).depth = 1 + 1 :=
  ⟨by decide, by rfl, by decide,
   C8_depth_zero_direct_children.1 hound8 fsR "/r" 1 treeR
     [⟨"/r/a.txt", 2, fileAttrs "a.txt" "txt"⟩]
     ⟨"/r/a.txt", 2, fileAttrs "a.txt" "txt"⟩
     (by decide) (by rfl) (by decide) (by decide)⟩

/-- C9: with hidden-directory pruning enabled, every file produced by the
traversal is reachable without passing through a hidden directory, at any
nesting level; concretely, on a tree with hidden directories at two levels
the non-hidden siblings at the same levels are still returned while
nothing below either hidden directory is. -/
theorem C9_hidden_directory_pruning :
    (∀ (h : FileHound) (rootV : FileView) (p : String) (d : Nat) (n : FSNode)
       (tracked files tr : List FileView) (f : FileView),
       h._ignoreHiddenDirectories = true →
       FileHound._search h rootV p d n tracked = .ok (files, tr) →
       f ∈ files → f ∈ cleanEntries p d n) ∧
    (FileHound.findSync fsNine
        (((FileHound.create "/x").paths ["/r9"]).ignoreHiddenDirectories)).1
      = .ok [.plain "/r9/a.txt", .plain "/r9/sub/e.txt"] := by
  constructor
  · intro h rootV p d n tracked files tr f hhid hres hf
    exact search_files_clean h rootV p d n tracked files tr hhid hres f hf
  · decide

/-- Witness for C9_hidden_directory_pruning on the two-level hidden tree. -/
theorem C9_hidden_directory_pruning_witness :
    hound9._ignoreHiddenDirectories = true ∧
    FileHound._search hound9 rv9 "/r9" 1 treeNine [] = .ok ([viewA9, viewE9], [subV9]) ∧
    viewE9 ∈ cleanEntries "/r9" 1 treeNine :=
  ⟨by decide, by decide,
   C9_hidden_directory_pruning.1 hound9 rv9 "/r9" 1 treeNine [] [viewA9, viewE9] [subV9]
     viewE9 (by decide) (by decide) (by decide)⟩

/-- C10: a freshly created instance has exactly one search path, the
working directory passed at construction (and it also resolves to exactly
that one root, since a singleton has no strict descendant to drop); a later
paths() call replaces this default root set outright, with a result
independent of the constructed-in working directory. -/
theorem C10_default_root_cwd (cwd cwd2 : String) (ps : List String) :
    (FileHound.create cwd)._searchPaths = [cwd] ∧
    (FileHound.create cwd).getSearchPaths = [cwd] ∧
    ((FileHound.create cwd).paths ps)._searchPaths = (jsUniq ps).map pathNormalize ∧
    (FileHound.create cwd).paths ps = (FileHound.create cwd2).paths ps := by
  refine ⟨rfl, ?_, rfl, rfl⟩
  simp [FileHound.getSearchPaths, FileHound.create, reducePaths, isStrictDescendantOf]

/-- Witness for C4_reuse_amended: a fresh instance finds the file, and the
same instance after a findSync run rejects a find with a TypeError. -/
theorem C4_reuse_amended_witness :
    (FileHound.create "/w")._sync = false ∧
    (FileHound.find fsW (FileHound.create "/w")).1 = .ok [.plain "/w/a.txt"] ∧
    (FileHound.find fsW ((FileHound.findSync fsW (FileHound.create "/w")).2)).1
      = .error .thenNotAFunction :=
  ⟨by decide, by decide,
   C4_reuse_amended.2.2 fsW (FileHound.create "/w") [.plain "/w/a.txt"]
     (by decide) (by decide)⟩
